import Mathlib

/-!
# Verification of `generate_structure.py`

A shallow embedding of the directory-tree renderer in `generate_structure.py`
and proofs of the specified properties.

The filesystem is modelled as a rose tree of named nodes.  A directory node
either lists its children successfully (`dirOk`) or raises an exception when
listed (`dirErr`), which models the `os.listdir` call failing at walk time
(e.g. the directory disappeared, or permissions deny the listing).  Python
exceptions relevant to the script are modelled by `PyError`:
`fileNotFoundError` is the one class the script catches; `permissionError`
stands for any other exception a listing may raise.
-/

/-- The Python exceptions that a directory listing can raise in this model.
`fileNotFoundError` models `FileNotFoundError` (the only class caught by
`walk_dir`); `permissionError` stands for any other exception class (for
example `PermissionError`); `notADirectoryError` models `NotADirectoryError`,
raised when `os.listdir` is applied to a non-directory. -/
inductive PyError : Type where
  | fileNotFoundError : PyError
  | permissionError : PyError
  | notADirectoryError : PyError
deriving DecidableEq, Repr

/-- A filesystem node: a plain file, a directory whose listing succeeds and
returns the given children, or a directory whose listing raises the given
exception. -/
inductive Node : Type where
  | file (name : String) : Node
  | dirOk (name : String) (children : List Node) : Node
  | dirErr (name : String) (e : PyError) : Node

/-- The base name of a node (`os.path.basename` of its path). -/
def nodeName : Node → String
  | .file n => n
  | .dirOk n _ => n
  | .dirErr n _ => n

/-- `os.path.isdir` on the node's own path: true exactly for directories. -/
def nodeIsDir : Node → Bool
  | .file _ => false
  | .dirOk _ _ => true
  | .dirErr _ _ => true

/-- The children of a node when it is a successfully listable directory. -/
def childrenOf : Node → List Node
  | .file _ => []
  | .dirOk _ cs => cs
  | .dirErr _ _ => []

/-- `os.listdir` on a node's path: returns the list of child base names, or
raises.  Listing a plain file raises `NotADirectoryError` (the script never
does this, because it only recurses when `os.path.isdir` is true). -/
def listdir : Node → Except PyError (List String)
  | .file _ => .error .notADirectoryError
  | .dirOk _ cs => .ok (cs.map nodeName)
  | .dirErr _ e => .error e

/-- Resolving `os.path.join(current_dir, item)` against the children of the
current directory: the child with base name `item`, if any. -/
def resolve (children : List Node) (item : String) : Option Node :=
  children.find? (fun c => nodeName c == item)

/-- `IGNORE_LIST` from the script: the fixed set of base names excluded from
the walk, compared by exact string equality. -/
def IGNORE_LIST : List String :=
  [".git", ".vscode", "__pycache__", ".idea", "node_modules", "build",
   "dist", ".DS_Store", "venv", ".env", "generate_structure.py",
   "project_structure.txt"]

/-- `OUTPUT_FILENAME` from the script. -/
def OUTPUT_FILENAME : String := "project_structure.txt"

/-- Python list repetition `xs * n`: `n` concatenated copies of `xs`, and the
empty list whenever `n ≤ 0`. -/
def pyListMul (xs : List String) (n : Int) : List String :=
  List.flatten (List.replicate n.toNat xs)

/-- Lexicographic comparison of char lists by Unicode code point:
`charListLe a b` is Python's `a <= b` on the underlying strings. -/
def charListLe : List Char → List Char → Bool
  | [], _ => true
  | _ :: _, [] => false
  | a :: as, b :: bs =>
      if a < b then true
      else if b < a then false
      else charListLe as bs

/-- Python string comparison `a <= b`: lexicographic over Unicode code
points (the platform's default string ordering used by `sorted`). -/
def strLe (a b : String) : Bool := charListLe a.data b.data

/-- The filtered, sorted item list of `walk_dir`:
`sorted([item for item in os.listdir(current_dir) if item not in IGNORE_LIST])`
applied to a successful listing.  Python's `sorted` is a stable ascending
sort, embedded as insertion sort with the lexicographic order `strLe`. -/
def sortedItems (names : List String) : List String :=
  List.insertionSort (strLe · · = true)
    (names.filter (fun item => !(IGNORE_LIST.contains item)))

/-- The pointer list of `walk_dir`: `["├── "] * (len(items) - 1) + ["└── "]`. -/
def pointersFor (items : List String) : List String :=
  pyListMul ["├── "] ((items.length : Int) - 1) ++ ["└── "]

mutual

/-- `walk_dir(current_dir, prefix)` from the script.  It lists the current
directory (catching exactly `FileNotFoundError`, in which case the branch is
abandoned with no lines), filters and sorts the child names, zips them with
the pointers, and emits `prefix + pointer + item` for each, recursing into
children that are directories.  The returned value is the list of lines this
call appends to `tree_lines`, or the first uncaught exception. -/
def walk_dir (current : Node) (pref : String) : Except PyError (List String) :=
  match h : listdir current with
  | .error .fileNotFoundError => .ok []
  | .error e => .error e
  | .ok names =>
      let items := sortedItems names
      let pointers := pointersFor items
      walkItems (childrenOf current) (pointers.zip items) pref
termination_by (sizeOf current, 0)
decreasing_by
  apply Prod.Lex.left
  cases current with
  | file n => simp [listdir] at h
  | dirOk n cs => simp [childrenOf]
  | dirErr n e => simp [listdir] at h

/-- The `for pointer, item in zip(pointers, items)` loop body of `walk_dir`,
iterated over the remaining `(pointer, item)` pairs.  For each pair it emits
the line `prefix + pointer + item`; when `os.path.isdir` holds for the joined
path it recurses with the prefix extended by `"│   "` (after a `"├── "`
pointer) or `"    "` (after a `"└── "` pointer). -/
def walkItems (children : List Node) (pairs : List (String × String))
    (pref : String) : Except PyError (List String) :=
  match pairs with
  | [] => .ok []
  | (pointer, item) :: rest =>
      let line := pref ++ pointer ++ item
      let sub :=
        match h : resolve children item with
        | some child =>
            if nodeIsDir child then
              walk_dir child (pref ++ (if pointer == "├── " then "│   " else "    "))
            else .ok []
        | none => .ok []
      match sub with
      | .error e => .error e
      | .ok subLines =>
          match walkItems children rest pref with
          | .error e => .error e
          | .ok more => .ok (line :: (subLines ++ more))
termination_by (sizeOf children, pairs.length + 1)
decreasing_by
  · apply Prod.Lex.left
    exact List.sizeOf_lt_of_mem (List.mem_of_find?_eq_some h)
  · apply Prod.Lex.right
    simp

end

mutual

/-- Fuel-indexed mirror of `walk_dir`, used to evaluate the walk on concrete
trees (the fuel recursion is structural, so the kernel can reduce it).
`none` means the fuel ran out; `walkFuel_sound` shows any `some` result
agrees with `walk_dir`. -/
def walkDirFuel : Nat → Node → String → Option (Except PyError (List String))
  | 0, _, _ => none
  | Nat.succ fuel, current, pref =>
      match listdir current with
      | .error .fileNotFoundError => some (.ok [])
      | .error e => some (.error e)
      | .ok names =>
          let items := sortedItems names
          walkItemsFuel fuel (childrenOf current) ((pointersFor items).zip items) pref

/-- Fuel-indexed mirror of `walkItems`. -/
def walkItemsFuel : Nat → List Node → List (String × String) → String →
    Option (Except PyError (List String))
  | 0, _, _, _ => none
  | Nat.succ _, _, [], _ => some (.ok [])
  | Nat.succ fuel, children, (pointer, item) :: rest, pref =>
      let line := pref ++ pointer ++ item
      let sub :=
        match resolve children item with
        | some child =>
            if nodeIsDir child then
              walkDirFuel fuel child (pref ++ (if pointer == "├── " then "│   " else "    "))
            else some (.ok [])
        | none => some (.ok [])
      match sub with
      | none => none
      | some (.error e) => some (.error e)
      | some (.ok subLines) =>
          match walkItemsFuel fuel children rest pref with
          | none => none
          | some (.error e) => some (.error e)
          | some (.ok more) => some (.ok (line :: (subLines ++ more)))

end

/-- Any defined (`some`) result of the fuel-indexed walk agrees with the
walk itself. -/
theorem walkFuel_sound (fuel : Nat) :
    (∀ current pref r, walkDirFuel fuel current pref = some r →
      walk_dir current pref = r) ∧
    (∀ children pairs pref r, walkItemsFuel fuel children pairs pref = some r →
      walkItems children pairs pref = r) := by
  induction fuel with
  | zero =>
      constructor
      · intro current pref r h; simp [walkDirFuel] at h
      · intro children pairs pref r h; simp [walkItemsFuel] at h
  | succ fuel ih =>
      obtain ⟨ihD, ihI⟩ := ih
      constructor
      · intro current pref r h
        rw [walk_dir]
        simp only [walkDirFuel] at h
        cases hl : listdir current with
        | error e =>
            rw [hl] at h
            cases e <;> simp_all
        | ok names =>
            rw [hl] at h
            exact ihI _ _ _ _ h
      · intro children pairs pref r h
        match pairs with
        | [] =>
            simp only [walkItemsFuel] at h
            rw [walkItems]
            exact Option.some.inj h
        | (pointer, item) :: rest =>
            rw [walkItems]
            simp only [walkItemsFuel] at h
            cases hr : resolve children item with
            | none =>
                rw [hr] at h
                cases hrest : walkItemsFuel fuel children rest pref with
                | none => rw [hrest] at h; simp at h
                | some r' =>
                    rw [hrest] at h
                    rw [ihI _ _ _ _ hrest]
                    cases r' <;> simp_all
            | some child =>
                rw [hr] at h
                dsimp only at h ⊢
                by_cases hd : nodeIsDir child = true
                · rw [if_pos hd] at h
                  rw [if_pos hd]
                  cases hsub : walkDirFuel fuel child
                      (pref ++ (if pointer == "├── " then "│   " else "    ")) with
                  | none => rw [hsub] at h; simp at h
                  | some rsub =>
                      rw [hsub] at h
                      rw [ihD _ _ _ hsub]
                      cases rsub with
                      | error e => simp_all
                      | ok subLines =>
                          cases hrest : walkItemsFuel fuel children rest pref with
                          | none => rw [hrest] at h; simp at h
                          | some r' =>
                              rw [hrest] at h
                              rw [ihI _ _ _ _ hrest]
                              cases r' <;> simp_all
                · rw [if_neg hd] at h
                  rw [if_neg hd]
                  cases hrest : walkItemsFuel fuel children rest pref with
                  | none => rw [hrest] at h; simp at h
                  | some r' =>
                      rw [hrest] at h
                      rw [ihI _ _ _ _ hrest]
                      cases r' <;> simp_all

/-- A structured view of one emitted tree line: the indentation blocks
accumulated from the ancestors (outermost first, `true` meaning the ancestor
was a non-last sibling, so its block draws the continuation bar `"│   "`),
whether this entry is the last among its siblings, and the entry's base
name. -/
structure TLine where
  blocks : List Bool
  isLast : Bool
  name : String
deriving DecidableEq, Repr

/-- The four-character indentation block contributed by one ancestor:
`"│   "` after a non-last ancestor, `"    "` after a last one. -/
def blockStr (b : Bool) : String := if b then "│   " else "    "

/-- The indentation prefix corresponding to a list of ancestor blocks: the
concatenation of the four-character block of each ancestor, outermost
first. -/
def renderPref : List Bool → String
  | [] => ""
  | b :: bs => blockStr b ++ renderPref bs

/-- The pointer glyph of an entry: `"└── "` for the last sibling and
`"├── "` otherwise. -/
def pointerStr (last : Bool) : String := if last then "└── " else "├── "

/-- Rendering a structured line into the string `walk_dir` emits. -/
def renderLine (l : TLine) : String :=
  renderPref l.blocks ++ pointerStr l.isLast ++ l.name

/-- The is-last flags of the items of one directory, in order: `false` for
every item but the final one (mirrors `pointersFor` through `pointerStr`). -/
def lastFlags (items : List String) : List Bool :=
  List.replicate (items.length - 1) false ++ [true]

mutual

/-- Structured mirror of `walkDirFuel`: same control flow, but it records
each emitted line as a `TLine` instead of a formatted string. -/
def walkSDirFuel : Nat → Node → List Bool → Option (Except PyError (List TLine))
  | 0, _, _ => none
  | Nat.succ fuel, current, bs =>
      match listdir current with
      | .error .fileNotFoundError => some (.ok [])
      | .error e => some (.error e)
      | .ok names =>
          let items := sortedItems names
          walkSItemsFuel fuel (childrenOf current) ((lastFlags items).zip items) bs

/-- Structured mirror of `walkItemsFuel`. -/
def walkSItemsFuel : Nat → List Node → List (Bool × String) → List Bool →
    Option (Except PyError (List TLine))
  | 0, _, _, _ => none
  | Nat.succ _, _, [], _ => some (.ok [])
  | Nat.succ fuel, children, (last, item) :: rest, bs =>
      let sub :=
        match resolve children item with
        | some child =>
            if nodeIsDir child then walkSDirFuel fuel child (bs ++ [!last])
            else some (.ok [])
        | none => some (.ok [])
      match sub with
      | none => none
      | some (.error e) => some (.error e)
      | some (.ok subLines) =>
          match walkSItemsFuel fuel children rest bs with
          | none => none
          | some (.error e) => some (.error e)
          | some (.ok more) => some (.ok (⟨bs, last, item⟩ :: (subLines ++ more)))

end

theorem pointersFor_eq_map (items : List String) :
    pointersFor items = (lastFlags items).map pointerStr := by
  unfold pointersFor lastFlags pyListMul pointerStr
  cases items with
  | nil => rfl
  | cons x xs =>
      simp only [List.length_cons, List.map_append, List.map_replicate]
      have h1 : ((↑(xs.length + 1) : Int) - 1).toNat = xs.length := by
        push_cast
        omega
      rw [h1]
      have h2 : ∀ k : Nat, List.flatten (List.replicate k ["├── "]) =
          List.replicate k "├── " := by
        intro k
        induction k with
        | zero => rfl
        | succ k ih => simp [List.replicate_succ, ih]
      rw [h2]
      simp

theorem renderPref_append (bs : List Bool) (b : Bool) :
    renderPref (bs ++ [b]) = renderPref bs ++ blockStr b := by
  induction bs with
  | nil => simp [renderPref, String.append_empty, String.empty_append]
  | cons x xs ih =>
      show blockStr x ++ renderPref (xs ++ [b]) = blockStr x ++ renderPref xs ++ blockStr b
      rw [ih, String.append_assoc]

theorem blockStr_of_pointer (last : Bool) :
    (if pointerStr last == "├── " then "│   " else "    ") = blockStr (!last) := by
  cases last <;> rfl

theorem zip_map_fst {α β γ : Type} (f : α → γ) (l1 : List α) (l2 : List β) :
    (l1.map f).zip l2 = (l1.zip l2).map (fun p => (f p.1, p.2)) := by
  induction l1 generalizing l2 with
  | nil => simp
  | cons x xs ih => cases l2 <;> simp [ih]

/-- The string walk and the structured walk agree: running the walk with the
rendered prefix of `bs` produces exactly the rendered lines of the
structured walk. -/
theorem walkS_corr (fuel : Nat) :
    (∀ current bs, walkDirFuel fuel current (renderPref bs) =
      Option.map (Except.map (List.map renderLine)) (walkSDirFuel fuel current bs)) ∧
    (∀ children pairsS bs,
      walkItemsFuel fuel children (pairsS.map (fun p => (pointerStr p.1, p.2)))
        (renderPref bs) =
      Option.map (Except.map (List.map renderLine))
        (walkSItemsFuel fuel children pairsS bs)) := by
  induction fuel with
  | zero =>
      constructor
      · intro current bs; simp [walkDirFuel, walkSDirFuel, Except.map]
      · intro children pairsS bs; simp [walkItemsFuel, walkSItemsFuel, Except.map]
  | succ fuel ih =>
      obtain ⟨ihD, ihI⟩ := ih
      constructor
      · intro current bs
        simp only [walkDirFuel, walkSDirFuel]
        cases hl : listdir current with
        | error e => cases e <;> simp [Except.map]
        | ok names =>
            have hzip : (pointersFor (sortedItems names)).zip (sortedItems names) =
                ((lastFlags (sortedItems names)).zip (sortedItems names)).map
                  (fun p => (pointerStr p.1, p.2)) := by
              rw [pointersFor_eq_map, zip_map_fst]
            dsimp only
            rw [hzip]
            exact ihI _ _ _
      · intro children pairsS bs
        match pairsS with
        | [] => simp [walkItemsFuel, walkSItemsFuel, Except.map]
        | (last, item) :: restS =>
            simp only [List.map_cons, walkItemsFuel, walkSItemsFuel]
            have hpref : renderPref bs ++ (if pointerStr last == "├── "
                then "│   " else "    ") = renderPref (bs ++ [!last]) := by
              rw [blockStr_of_pointer, renderPref_append]
            rw [hpref]
            cases hr : resolve children item with
            | none =>
                dsimp only
                cases hrest : walkSItemsFuel fuel children restS bs with
                | none => rw [ihI _ _ _, hrest]; rfl
                | some r' =>
                    rw [ihI _ _ _, hrest]
                    cases r' <;> simp [renderLine, Except.map]
            | some child =>
                dsimp only
                by_cases hd : nodeIsDir child = true
                · rw [if_pos hd, if_pos hd]
                  cases hsub : walkSDirFuel fuel child (bs ++ [!last]) with
                  | none => rw [ihD _ _, hsub]; rfl
                  | some rsub =>
                      rw [ihD _ _, hsub]
                      cases rsub with
                      | error e => rfl
                      | ok subS =>
                          cases hrest : walkSItemsFuel fuel children restS bs with
                          | none => rw [ihI _ _ _, hrest]; rfl
                          | some r' =>
                              rw [ihI _ _ _, hrest]
                              cases r' <;> simp [renderLine, Except.map]
                · rw [if_neg hd, if_neg hd]
                  cases hrest : walkSItemsFuel fuel children restS bs with
                  | none => rw [ihI _ _ _, hrest]; rfl
                  | some r' =>
                      rw [ihI _ _ _, hrest]
                      cases r' <;> simp [renderLine, Except.map]

/-- More fuel never changes a defined result of the fuel-indexed walk. -/
theorem walkFuel_mono (fuel : Nat) :
    (∀ current pref r, walkDirFuel fuel current pref = some r →
      walkDirFuel (fuel + 1) current pref = some r) ∧
    (∀ children pairs pref r, walkItemsFuel fuel children pairs pref = some r →
      walkItemsFuel (fuel + 1) children pairs pref = some r) := by
  induction fuel with
  | zero =>
      constructor
      · intro current pref r h; simp [walkDirFuel] at h
      · intro children pairs pref r h; simp [walkItemsFuel] at h
  | succ fuel ih =>
      obtain ⟨ihD, ihI⟩ := ih
      constructor
      · intro current pref r h
        simp only [walkDirFuel] at h ⊢
        cases hl : listdir current with
        | error e => rw [hl] at h; cases e <;> simpa using h
        | ok names => rw [hl] at h; exact ihI _ _ _ _ h
      · intro children pairs pref r h
        match pairs with
        | [] => simpa [walkItemsFuel] using h
        | (pointer, item) :: rest =>
            simp only [walkItemsFuel] at h ⊢
            cases hr : resolve children item with
            | none =>
                rw [hr] at h
                dsimp only at h ⊢
                cases hrest : walkItemsFuel fuel children rest pref with
                | none => rw [hrest] at h; simp at h
                | some r' => rw [ihI _ _ _ _ hrest]; rw [hrest] at h; exact h
            | some child =>
                rw [hr] at h
                dsimp only at h ⊢
                by_cases hd : nodeIsDir child = true
                · rw [if_pos hd] at h ⊢
                  cases hsub : walkDirFuel fuel child
                      (pref ++ (if pointer == "├── " then "│   " else "    ")) with
                  | none => rw [hsub] at h; simp at h
                  | some rsub =>
                      rw [ihD _ _ _ hsub]
                      rw [hsub] at h
                      cases rsub with
                      | error e => exact h
                      | ok subLines =>
                          cases hrest : walkItemsFuel fuel children rest pref with
                          | none => rw [hrest] at h; simp at h
                          | some r' =>
                              rw [ihI _ _ _ _ hrest]; rw [hrest] at h; exact h
                · rw [if_neg hd] at h ⊢
                  cases hrest : walkItemsFuel fuel children rest pref with
                  | none => rw [hrest] at h; simp at h
                  | some r' => rw [ihI _ _ _ _ hrest]; rw [hrest] at h; exact h

theorem walkDirFuel_mono_le {fuel fuel' : Nat} (hle : fuel ≤ fuel') :
    ∀ current pref r, walkDirFuel fuel current pref = some r →
      walkDirFuel fuel' current pref = some r := by
  induction hle with
  | refl => exact fun current pref r h => h
  | step _ ih =>
      intro current pref r h
      exact (walkFuel_mono _).1 _ _ _ (ih _ _ _ h)

theorem walkItemsFuel_mono_le {fuel fuel' : Nat} (hle : fuel ≤ fuel') :
    ∀ children pairs pref r, walkItemsFuel fuel children pairs pref = some r →
      walkItemsFuel fuel' children pairs pref = some r := by
  induction hle with
  | refl => exact fun children pairs pref r h => h
  | step _ ih =>
      intro children pairs pref r h
      exact (walkFuel_mono _).2 _ _ _ _ (ih _ _ _ _ h)

theorem nodeSizeOf_pos (current : Node) : 1 ≤ sizeOf current := by
  cases current <;> simp <;> omega

/-- Enough fuel always exists: the fuel-indexed walk reaches the value of
`walk_dir`. -/
theorem walkFuel_complete_aux :
    ∀ N current, sizeOf current ≤ N → ∀ pref,
      ∃ fuel, walkDirFuel fuel current pref = some (walk_dir current pref) := by
  intro N
  induction N with
  | zero =>
      intro current h
      have := nodeSizeOf_pos current
      omega
  | succ N ihN =>
      intro current hsz pref
      rw [walk_dir]
      cases hl : listdir current with
      | error e =>
          cases e with
          | fileNotFoundError => exact ⟨1, by simp [walkDirFuel, hl]⟩
          | permissionError => exact ⟨1, by simp [walkDirFuel, hl]⟩
          | notADirectoryError => exact ⟨1, by simp [walkDirFuel, hl]⟩
      | ok names =>
          have hcs : sizeOf (childrenOf current) ≤ N := by
            cases current with
            | file n => simp [listdir] at hl
            | dirErr n e => simp [listdir] at hl
            | dirOk n cs =>
                simp only [childrenOf]
                have hspec : sizeOf (Node.dirOk n cs) = 1 + sizeOf n + sizeOf cs := by
                  simp
                omega
          have hitems : ∀ pairs pref',
              ∃ fuel, walkItemsFuel fuel (childrenOf current) pairs pref' =
                some (walkItems (childrenOf current) pairs pref') := by
            intro pairs
            induction pairs with
            | nil =>
                intro pref'
                refine ⟨1, ?_⟩
                rw [walkItems]
                rfl
            | cons p rest ihrest =>
                intro pref'
                obtain ⟨pointer, item⟩ := p
                rw [walkItems]
                cases hr : resolve (childrenOf current) item with
                | none =>
                    obtain ⟨fuel₂, hf₂⟩ := ihrest pref'
                    refine ⟨fuel₂ + 1, ?_⟩
                    simp only [walkItemsFuel, hr]
                    rw [hf₂]
                    cases walkItems (childrenOf current) rest pref' <;> rfl
                | some child =>
                    by_cases hd : nodeIsDir child = true
                    · have hchild : sizeOf child ≤ N := by
                        have := List.sizeOf_lt_of_mem (List.mem_of_find?_eq_some hr)
                        omega
                      obtain ⟨fuel₁, hf₁⟩ := ihN child hchild
                        (pref' ++ (if pointer == "├── " then "│   " else "    "))
                      obtain ⟨fuel₂, hf₂⟩ := ihrest pref'
                      refine ⟨max fuel₁ fuel₂ + 1, ?_⟩
                      simp only [walkItemsFuel, hr]
                      rw [if_pos hd]
                      rw [walkDirFuel_mono_le (Nat.le_max_left fuel₁ fuel₂) _ _ _ hf₁]
                      rw [walkItemsFuel_mono_le (Nat.le_max_right fuel₁ fuel₂) _ _ _ _ hf₂]
                      rw [if_pos hd]
                      cases walk_dir child
                          (pref' ++ (if pointer == "├── " then "│   " else "    ")) with
                      | error e => rfl
                      | ok subLines =>
                          cases walkItems (childrenOf current) rest pref' <;> rfl
                    · obtain ⟨fuel₂, hf₂⟩ := ihrest pref'
                      refine ⟨fuel₂ + 1, ?_⟩
                      simp only [walkItemsFuel, hr]
                      rw [if_neg hd, if_neg hd]
                      rw [hf₂]
                      cases walkItems (childrenOf current) rest pref' <;> rfl
          obtain ⟨fuel₀, h₀⟩ :=
            hitems ((pointersFor (sortedItems names)).zip (sortedItems names)) pref
          refine ⟨fuel₀ + 1, ?_⟩
          simp only [walkDirFuel, hl]
          exact h₀

/-- Enough fuel always exists for the walk from any node. -/
theorem walkDirFuel_complete (current : Node) (pref : String) :
    ∃ fuel, walkDirFuel fuel current pref = some (walk_dir current pref) :=
  walkFuel_complete_aux (sizeOf current) current le_rfl pref

theorem charListLe_cons (a b : Char) (as bs : List Char) :
    charListLe (a :: as) (b :: bs) =
      if a < b then true else if b < a then false else charListLe as bs := rfl

theorem charListLe_total : ∀ a b : List Char,
    charListLe a b = true ∨ charListLe b a = true := by
  intro a
  induction a with
  | nil => intro b; left; rfl
  | cons x xs ih =>
      intro b
      cases b with
      | nil => right; rfl
      | cons y ys =>
          rcases lt_trichotomy x y with h | h | h
          · left; simp [charListLe_cons, h]
          · subst h
            rcases ih ys with h' | h'
            · left; simp [charListLe_cons, lt_irrefl, h']
            · right; simp [charListLe_cons, lt_irrefl, h']
          · right; simp [charListLe_cons, h]

theorem charListLe_trans : ∀ a b c : List Char,
    charListLe a b = true → charListLe b c = true → charListLe a c = true := by
  intro a
  induction a with
  | nil => intro b c _ _; rfl
  | cons x xs ih =>
      intro b c hab hbc
      cases b with
      | nil => simp [charListLe] at hab
      | cons y ys =>
          cases c with
          | nil => simp [charListLe] at hbc
          | cons z zs =>
              rw [charListLe_cons] at hab hbc ⊢
              have hab' : x < y ∨ (x = y ∧ charListLe xs ys = true) := by
                by_cases h1 : x < y
                · exact Or.inl h1
                · right
                  rw [if_neg h1] at hab
                  by_cases h2 : y < x
                  · rw [if_pos h2] at hab; exact absurd hab (by simp)
                  · exact ⟨le_antisymm (not_lt.mp h2) (not_lt.mp h1),
                      by rwa [if_neg h2] at hab⟩
              have hbc' : y < z ∨ (y = z ∧ charListLe ys zs = true) := by
                by_cases h1 : y < z
                · exact Or.inl h1
                · right
                  rw [if_neg h1] at hbc
                  by_cases h2 : z < y
                  · rw [if_pos h2] at hbc; exact absurd hbc (by simp)
                  · exact ⟨le_antisymm (not_lt.mp h2) (not_lt.mp h1),
                      by rwa [if_neg h2] at hbc⟩
              rcases hab' with hxy | ⟨hxy, hrec1⟩
              · rcases hbc' with hyz | ⟨hyz, _⟩
                · simp [lt_trans hxy hyz]
                · subst hyz; simp [hxy]
              · subst hxy
                rcases hbc' with hyz | ⟨hyz, hrec2⟩
                · simp [hyz]
                · subst hyz
                  simp only [lt_irrefl, if_false]
                  exact ih ys zs hrec1 hrec2

instance strLe_total : IsTotal String (strLe · · = true) :=
  ⟨fun a b => charListLe_total a.data b.data⟩

instance strLe_trans : IsTrans String (strLe · · = true) :=
  ⟨fun a b c => charListLe_trans a.data b.data c.data⟩

/-- The items of `walk_dir` are sorted ascending in the lexicographic string
order (Python's default). -/
theorem sortedItems_sorted (names : List String) :
    List.Sorted (strLe · · = true) (sortedItems names) :=
  List.sorted_insertionSort _ _

theorem mem_sortedItems_not_ignored {names : List String} {item : String}
    (h : item ∈ sortedItems names) : IGNORE_LIST.contains item = false := by
  unfold sortedItems at h
  rw [List.mem_insertionSort] at h
  have := List.of_mem_filter h
  simpa using this

mutual

/-- Every directory in the tree lists successfully (no listing error
anywhere). -/
def allOk : Node → Bool
  | .file _ => true
  | .dirErr _ _ => false
  | .dirOk _ cs => allOkList cs

def allOkList : List Node → Bool
  | [] => true
  | c :: cs => allOk c && allOkList cs

end

/-- No two children of one directory share a base name (true of any real
filesystem directory). -/
def nodupNames : List String → Bool
  | [] => true
  | s :: ss => !(ss.contains s) && nodupNames ss

mutual

/-- Child base names are distinct in every directory of the tree. -/
def uniqNames : Node → Bool
  | .file _ => true
  | .dirErr _ _ => true
  | .dirOk _ cs => nodupNames (cs.map nodeName) && uniqNamesList cs

def uniqNamesList : List Node → Bool
  | [] => true
  | c :: cs => uniqNames c && uniqNamesList cs

end

mutual

/-- No entry anywhere in the tree (below the root) has a name from
`IGNORE_LIST`. -/
def noIgnored : Node → Bool
  | .file _ => true
  | .dirErr _ _ => true
  | .dirOk _ cs =>
      cs.all (fun c => !(IGNORE_LIST.contains (nodeName c))) && noIgnoredList cs

def noIgnoredList : List Node → Bool
  | [] => true
  | c :: cs => noIgnored c && noIgnoredList cs

end

mutual

/-- The multiset of base names of all filesystem entries strictly below the
given node, reachable by recursive descent. -/
def reachNames : Node → Multiset String
  | .file _ => 0
  | .dirErr _ _ => 0
  | .dirOk _ cs => reachNamesList cs

def reachNamesList : List Node → Multiset String
  | [] => 0
  | c :: cs => nodeName c ::ₘ (reachNames c + reachNamesList cs)

end

mutual

/-- The tree with every entry whose base name is in `IGNORE_LIST` removed,
together with its whole subtree, at every depth; names are compared by exact
string equality only. -/
def pruneIgnored : Node → Node
  | .file n => .file n
  | .dirErr n e => .dirErr n e
  | .dirOk n cs => .dirOk n (pruneList cs)

def pruneList : List Node → List Node
  | [] => []
  | c :: cs =>
      if IGNORE_LIST.contains (nodeName c) then pruneList cs
      else pruneIgnored c :: pruneList cs

end

theorem nodeName_prune (c : Node) : nodeName (pruneIgnored c) = nodeName c := by
  cases c <;> rfl

theorem nodeIsDir_prune (c : Node) : nodeIsDir (pruneIgnored c) = nodeIsDir c := by
  cases c <;> rfl

theorem pruneList_map_name (cs : List Node) :
    (pruneList cs).map nodeName =
      (cs.map nodeName).filter (fun nm => !(IGNORE_LIST.contains nm)) := by
  induction cs with
  | nil => rfl
  | cons c cs ih =>
      simp only [pruneList, List.map_cons, List.filter_cons]
      by_cases h : IGNORE_LIST.contains (nodeName c) = true
      · have hmem : nodeName c ∈ IGNORE_LIST := by simpa using h
        simp [hmem, ih]
      · have hmem : nodeName c ∉ IGNORE_LIST := by simpa using h
        simp [hmem, ih, nodeName_prune]

theorem sortedItems_pruneList (cs : List Node) :
    sortedItems ((pruneList cs).map nodeName) = sortedItems (cs.map nodeName) := by
  unfold sortedItems
  rw [pruneList_map_name, List.filter_filter]
  simp

theorem resolve_pruneList (cs : List Node) (item : String)
    (h : IGNORE_LIST.contains item = false) :
    resolve (pruneList cs) item = Option.map pruneIgnored (resolve cs item) := by
  induction cs with
  | nil => rfl
  | cons c cs ih =>
      simp only [pruneList, resolve, List.find?]
      by_cases hig : IGNORE_LIST.contains (nodeName c) = true
      · have hne : (nodeName c == item) = false := by
          by_cases he : nodeName c = item
          · rw [he] at hig; rw [hig] at h; exact absurd h (by simp)
          · simpa using he
        rw [if_pos hig]
        rw [hne]
        exact ih
      · rw [if_neg hig]
        simp only [List.find?, nodeName_prune]
        by_cases he : (nodeName c == item) = true
        · rw [he]; rfl
        · rw [Bool.not_eq_true] at he
          rw [he]
          exact ih

/-- Pruning the ignored entries from the tree does not change the walk: the
walk never looks at an ignored entry or anything below it. -/
theorem walkPruneFuel (fuel : Nat) :
    (∀ current pref, walkDirFuel fuel (pruneIgnored current) pref =
      walkDirFuel fuel current pref) ∧
    (∀ children pairs pref, (∀ p ∈ pairs, IGNORE_LIST.contains p.2 = false) →
      walkItemsFuel fuel (pruneList children) pairs pref =
        walkItemsFuel fuel children pairs pref) := by
  induction fuel with
  | zero => constructor <;> intros <;> rfl
  | succ fuel ih =>
      obtain ⟨ihD, ihI⟩ := ih
      constructor
      · intro current pref
        cases current with
        | file n => rfl
        | dirErr n e => rfl
        | dirOk n cs =>
            simp only [walkDirFuel, pruneIgnored, listdir, childrenOf]
            rw [sortedItems_pruneList]
            apply ihI
            intro p hp
            obtain ⟨ptr, it⟩ := p
            exact mem_sortedItems_not_ignored (List.of_mem_zip hp).2
      · intro children pairs pref hni
        match pairs with
        | [] => rfl
        | (pointer, item) :: rest =>
            have hitem : IGNORE_LIST.contains item = false :=
              hni (pointer, item) (List.mem_cons_self _ _)
            have hrest : ∀ p ∈ rest, IGNORE_LIST.contains p.2 = false :=
              fun p hp => hni p (List.mem_cons_of_mem _ hp)
            simp only [walkItemsFuel]
            rw [resolve_pruneList _ _ hitem]
            cases hr : resolve children item with
            | none =>
                dsimp only [Option.map]
                rw [ihI _ _ _ hrest]
            | some child =>
                dsimp only [Option.map]
                rw [nodeIsDir_prune]
                by_cases hd : nodeIsDir child = true
                · rw [if_pos hd, if_pos hd, ihD]
                  rw [ihI _ _ _ hrest]
                · rw [if_neg hd, if_neg hd]
                  rw [ihI _ _ _ hrest]

/-- Inversion for a successful structured walk of one directory. -/
theorem walkSDirFuel_ok_cases {fuel : Nat} {current : Node} {bs : List Bool}
    {L : List TLine} (h : walkSDirFuel (fuel + 1) current bs = some (.ok L)) :
    (listdir current = .error .fileNotFoundError ∧ L = []) ∨
    (∃ names, listdir current = .ok names ∧
      walkSItemsFuel fuel (childrenOf current)
        ((lastFlags (sortedItems names)).zip (sortedItems names)) bs =
          some (.ok L)) := by
  simp only [walkSDirFuel] at h
  cases hl : listdir current with
  | error e =>
      rw [hl] at h
      cases e with
      | fileNotFoundError =>
          left
          refine ⟨rfl, ?_⟩
          have := Option.some.inj h
          exact (Except.ok.inj this).symm
      | permissionError => simp at h
      | notADirectoryError => simp at h
  | ok names =>
      rw [hl] at h
      exact Or.inr ⟨names, rfl, h⟩

/-- Inversion for one successful step of the structured item loop. -/
theorem walkSItemsFuel_cons_ok {fuel : Nat} {children : List Node} {last : Bool}
    {item : String} {restS : List (Bool × String)} {bs : List Bool} {L : List TLine}
    (h : walkSItemsFuel (fuel + 1) children ((last, item) :: restS) bs =
      some (.ok L)) :
    ∃ subL moreL, L = TLine.mk bs last item :: (subL ++ moreL) ∧
      walkSItemsFuel fuel children restS bs = some (.ok moreL) ∧
      ((resolve children item = none ∧ subL = []) ∨
       (∃ child, resolve children item = some child ∧ nodeIsDir child = false ∧
         subL = []) ∨
       (∃ child, resolve children item = some child ∧ nodeIsDir child = true ∧
         walkSDirFuel fuel child (bs ++ [!last]) = some (.ok subL))) := by
  simp only [walkSItemsFuel] at h
  cases hr : resolve children item with
  | none =>
      rw [hr] at h
      dsimp only at h
      cases hrest : walkSItemsFuel fuel children restS bs with
      | none => rw [hrest] at h; simp at h
      | some r' =>
          rw [hrest] at h
          cases r' with
          | error e => simp at h
          | ok moreL =>
              refine ⟨[], moreL, ?_, rfl, Or.inl ⟨rfl, rfl⟩⟩
              have := Option.some.inj h
              simpa using (Except.ok.inj this).symm
  | some child =>
      rw [hr] at h
      dsimp only at h
      by_cases hd : nodeIsDir child = true
      · rw [if_pos hd] at h
        cases hsub : walkSDirFuel fuel child (bs ++ [!last]) with
        | none => rw [hsub] at h; simp at h
        | some rsub =>
            rw [hsub] at h
            cases rsub with
            | error e => simp at h
            | ok subL =>
                cases hrest : walkSItemsFuel fuel children restS bs with
                | none => rw [hrest] at h; simp at h
                | some r' =>
                    rw [hrest] at h
                    cases r' with
                    | error e => simp at h
                    | ok moreL =>
                        refine ⟨subL, moreL, ?_, rfl,
                          Or.inr (Or.inr ⟨child, rfl, hd, hsub⟩)⟩
                        have := Option.some.inj h
                        exact (Except.ok.inj this).symm
      · rw [if_neg hd] at h
        cases hrest : walkSItemsFuel fuel children restS bs with
        | none => rw [hrest] at h; simp at h
        | some r' =>
            rw [hrest] at h
            cases r' with
            | error e => simp at h
            | ok moreL =>
                refine ⟨[], moreL, ?_, rfl,
                  Or.inr (Or.inl ⟨child, rfl, by simpa using hd, rfl⟩)⟩
                have := Option.some.inj h
                simpa using (Except.ok.inj this).symm

theorem forall₂_exists_of_mem_left {α β : Type} {R : α → β → Prop}
    {as : List α} {bs : List β} (h : List.Forall₂ R as bs) {a : α} (ha : a ∈ as) :
    ∃ b, b ∈ bs ∧ R a b := by
  induction h with
  | nil => simp at ha
  | cons hR hF ih =>
      rcases List.mem_cons.mp ha with rfl | ha'
      · exact ⟨_, List.mem_cons_self _ _, hR⟩
      · obtain ⟨b, hb, hRb⟩ := ih ha'
        exact ⟨b, List.mem_cons_of_mem _ hb, hRb⟩

/-- Structural shape of the lines of a successful walk: each line either
belongs to a direct child (blocks exactly `bs`) or lies strictly deeper, and
the lines split into one segment per `(is-last, item)` pair, each segment
being the child's own line followed by only strictly-deeper lines whose
blocks extend the child's blocks by `!is-last`. -/
theorem walkS_shape (fuel : Nat) :
    (∀ current bs L, walkSDirFuel fuel current bs = some (.ok L) →
      ∀ l ∈ L, l.blocks = bs ∨ ∃ f ext, l.blocks = bs ++ f :: ext) ∧
    (∀ children pairsS bs L,
      walkSItemsFuel fuel children pairsS bs = some (.ok L) →
      ∃ segs : List (List TLine), L = segs.flatten ∧
        List.Forall₂ (fun seg p => ∃ rest, seg = TLine.mk bs p.1 p.2 :: rest ∧
          ∀ l' ∈ rest, ∃ ext, l'.blocks = bs ++ (!p.1) :: ext) segs pairsS) := by
  induction fuel with
  | zero =>
      constructor
      · intro current bs L h; simp [walkSDirFuel] at h
      · intro children pairsS bs L h; simp [walkSItemsFuel] at h
  | succ fuel ih =>
      obtain ⟨ihD, ihI⟩ := ih
      constructor
      · intro current bs L h
        rcases walkSDirFuel_ok_cases h with ⟨_, rfl⟩ | ⟨names, _, hitems⟩
        · intro l hl; simp at hl
        · obtain ⟨segs, rfl, hF⟩ := ihI _ _ _ _ hitems
          intro l hl
          rw [List.mem_flatten] at hl
          obtain ⟨seg, hseg, hlseg⟩ := hl
          obtain ⟨p, _, hR⟩ := forall₂_exists_of_mem_left hF hseg
          obtain ⟨rest, rfl, hrest⟩ := hR
          rcases List.mem_cons.mp hlseg with rfl | hl'
          · exact Or.inl rfl
          · obtain ⟨ext, hext⟩ := hrest _ hl'
            exact Or.inr ⟨!p.1, ext, hext⟩
      · intro children pairsS bs L h
        match pairsS with
        | [] =>
            have hL : L = [] := by
              simp only [walkSItemsFuel] at h
              have := Option.some.inj h
              simpa using (Except.ok.inj this).symm
            subst hL
            exact ⟨[], rfl, List.Forall₂.nil⟩
        | (last, item) :: restS =>
            obtain ⟨subL, moreL, rfl, hrest, hsub⟩ := walkSItemsFuel_cons_ok h
            obtain ⟨segs, rfl, hF⟩ := ihI _ _ _ _ hrest
            refine ⟨(TLine.mk bs last item :: subL) :: segs, by simp, ?_⟩
            refine List.Forall₂.cons ⟨subL, rfl, ?_⟩ hF
            intro l' hl'
            rcases hsub with ⟨_, rfl⟩ | ⟨child, _, _, rfl⟩ | ⟨child, _, _, hsubwalk⟩
            · simp at hl'
            · simp at hl'
            · have hshape := ihD _ _ _ hsubwalk l' hl'
              rcases hshape with heq | ⟨f, ext, heq⟩
              · exact ⟨[], heq⟩
              · refine ⟨f :: ext, ?_⟩
                rw [heq]
                simp

theorem allOkList_mem {cs : List Node} {c : Node} (h : allOkList cs = true)
    (hc : c ∈ cs) : allOk c = true := by
  induction cs with
  | nil => simp at hc
  | cons c' cs' ih =>
      simp only [allOkList, Bool.and_eq_true] at h
      rcases List.mem_cons.mp hc with rfl | hc'
      · exact h.1
      · exact ih h.2 hc'

theorem uniqNamesList_mem {cs : List Node} {c : Node}
    (h : uniqNamesList cs = true) (hc : c ∈ cs) : uniqNames c = true := by
  induction cs with
  | nil => simp at hc
  | cons c' cs' ih =>
      simp only [uniqNamesList, Bool.and_eq_true] at h
      rcases List.mem_cons.mp hc with rfl | hc'
      · exact h.1
      · exact ih h.2 hc'

theorem noIgnoredList_mem {cs : List Node} {c : Node}
    (h : noIgnoredList cs = true) (hc : c ∈ cs) : noIgnored c = true := by
  induction cs with
  | nil => simp at hc
  | cons c' cs' ih =>
      simp only [noIgnoredList, Bool.and_eq_true] at h
      rcases List.mem_cons.mp hc with rfl | hc'
      · exact h.1
      · exact ih h.2 hc'

/-- The reachable-name multiset below the child of `children` named `item`,
zero when no such child exists. -/
def reachResolve (children : List Node) (item : String) : Multiset String :=
  match resolve children item with
  | some c => reachNames c
  | none => 0

theorem reachNames_of_listdir_error {current : Node} {e : PyError}
    (h : listdir current = .error e) : reachNames current = 0 := by
  cases current with
  | file n => rfl
  | dirErr n e' => rfl
  | dirOk n cs => simp [listdir] at h

theorem reachNames_of_not_dir {c : Node} (h : nodeIsDir c = false) :
    reachNames c = 0 := by
  cases c with
  | file n => rfl
  | dirOk n cs => simp [nodeIsDir] at h
  | dirErr n e => simp [nodeIsDir] at h

theorem lastFlags_length (items : List String) :
    items.length ≤ (lastFlags items).length := by
  cases items <;> simp [lastFlags]

theorem zip_lastFlags_map_snd (items : List String) :
    ((lastFlags items).zip items).map Prod.snd = items :=
  List.map_snd_zip _ _ (lastFlags_length items)

theorem sum_over_names (cs : List Node)
    (hnd : nodupNames (cs.map nodeName) = true) :
    ((cs.map nodeName).map
      (fun it => (it ::ₘ reachResolve cs it : Multiset String))).sum =
    reachNamesList cs := by
  induction cs with
  | nil => simp [reachNamesList]
  | cons c cs' ih =>
      simp only [nodupNames, List.map_cons, Bool.and_eq_true,
        Bool.not_eq_true'] at hnd
      obtain ⟨hcont, hnd'⟩ := hnd
      simp only [List.map_cons, List.sum_cons]
      have hhead : reachResolve (c :: cs') (nodeName c) = reachNames c := by
        simp [reachResolve, resolve, List.find?]
      have htail : (cs'.map nodeName).map
          (fun it => (it ::ₘ reachResolve (c :: cs') it : Multiset String)) =
          (cs'.map nodeName).map
            (fun it => (it ::ₘ reachResolve cs' it : Multiset String)) := by
        apply List.map_congr_left
        intro it hit
        have hne : (nodeName c == it) = false := by
          by_cases he : nodeName c = it
          · exfalso
            have hmem : nodeName c ∈ cs'.map nodeName := by rw [he]; exact hit
            have hcontra : (cs'.map nodeName).contains (nodeName c) = true := by
              simpa using hmem
            rw [hcontra] at hcont
            exact Bool.noConfusion hcont
          · simpa using he
        simp [reachResolve, resolve, List.find?, hne]
      rw [hhead, htail, ih hnd']
      simp only [reachNamesList]
      exact Multiset.cons_add _ _ _

/-- Emitted names of a successful structured walk, as a multiset: exactly
the reachable entries of the tree (under per-directory distinct names and no
ignored names). -/
theorem walkS_names (fuel : Nat) :
    (∀ current bs L, walkSDirFuel fuel current bs = some (.ok L) →
      uniqNames current = true → noIgnored current = true →
      (↑(L.map TLine.name) : Multiset String) = reachNames current) ∧
    (∀ children pairsS bs L,
      walkSItemsFuel fuel children pairsS bs = some (.ok L) →
      uniqNamesList children = true → noIgnoredList children = true →
      (↑(L.map TLine.name) : Multiset String) =
        (pairsS.map
          (fun p => (p.2 ::ₘ reachResolve children p.2 : Multiset String))).sum) := by
  induction fuel with
  | zero =>
      constructor
      · intro current bs L h; simp [walkSDirFuel] at h
      · intro children pairsS bs L h; simp [walkSItemsFuel] at h
  | succ fuel ih =>
      obtain ⟨ihD, ihI⟩ := ih
      constructor
      · intro current bs L h hu hni
        rcases walkSDirFuel_ok_cases h with ⟨hfnf, rfl⟩ | ⟨names, hl, hitems⟩
        · rw [reachNames_of_listdir_error hfnf]; rfl
        · cases current with
          | file n => simp [listdir] at hl
          | dirErr n e => simp [listdir] at hl
          | dirOk n cs =>
              have hnames : names = cs.map nodeName := by
                simpa [listdir] using hl.symm
              subst hnames
              simp only [uniqNames, Bool.and_eq_true] at hu
              simp only [noIgnored, Bool.and_eq_true] at hni
              simp only [childrenOf] at hitems
              rw [ihI _ _ _ _ hitems hu.2 hni.2]
              have e1 : ∀ pairsS : List (Bool × String),
                  (pairsS.map
                    (fun p => (p.2 ::ₘ reachResolve cs p.2 : Multiset String))) =
                  ((pairsS.map Prod.snd).map
                    (fun it => (it ::ₘ reachResolve cs it : Multiset String))) := by
                intro pairsS
                rw [List.map_map]
                rfl
              rw [e1, zip_lastFlags_map_snd]
              have hfilter :
                  (cs.map nodeName).filter
                    (fun item => !(IGNORE_LIST.contains item)) = cs.map nodeName := by
                apply List.filter_eq_self.mpr
                intro nm hnm
                obtain ⟨c, hc, rfl⟩ := List.mem_map.mp hnm
                have := List.all_eq_true.mp hni.1 c hc
                simpa using this
              have hperm : List.Perm (sortedItems (cs.map nodeName))
                  (cs.map nodeName) := by
                unfold sortedItems
                rw [hfilter]
                exact List.perm_insertionSort _ _
              rw [List.Perm.sum_eq (hperm.map _)]
              exact sum_over_names cs hu.1
      · intro children pairsS bs L h hu hni
        match pairsS with
        | [] =>
            have hL : L = [] := by
              simp only [walkSItemsFuel] at h
              have := Option.some.inj h
              simpa using (Except.ok.inj this).symm
            subst hL
            rfl
        | (last, item) :: restS =>
            obtain ⟨subL, moreL, rfl, hrest, hsub⟩ := walkSItemsFuel_cons_ok h
            have hmore := ihI _ _ _ _ hrest hu hni
            have hsubnames : (↑(subL.map TLine.name) : Multiset String) =
                reachResolve children item := by
              rcases hsub with ⟨hr, rfl⟩ | ⟨child, hr, hd, rfl⟩ |
                  ⟨child, hr, hd, hsubwalk⟩
              · simp [reachResolve, hr]
              · rw [show reachResolve children item = reachNames child by
                  simp [reachResolve, hr]]
                rw [reachNames_of_not_dir hd]
                rfl
              · rw [show reachResolve children item = reachNames child by
                  simp [reachResolve, hr]]
                have hcmem := List.mem_of_find?_eq_some hr
                exact ihD _ _ _ hsubwalk (uniqNamesList_mem hu hcmem)
                  (noIgnoredList_mem hni hcmem)
            simp only [List.map_cons, List.map_append, List.sum_cons]
            rw [← Multiset.cons_coe, ← Multiset.coe_add]
            rw [hsubnames, hmore]
            rw [Multiset.cons_add]

/-- No emitted line ever carries a name from `IGNORE_LIST`. -/
theorem walkS_noIgnored (fuel : Nat) :
    (∀ current bs L, walkSDirFuel fuel current bs = some (.ok L) →
      ∀ l ∈ L, IGNORE_LIST.contains l.name = false) ∧
    (∀ children pairsS bs L,
      walkSItemsFuel fuel children pairsS bs = some (.ok L) →
      (∀ p ∈ pairsS, IGNORE_LIST.contains p.2 = false) →
      ∀ l ∈ L, IGNORE_LIST.contains l.name = false) := by
  induction fuel with
  | zero =>
      constructor
      · intro current bs L h; simp [walkSDirFuel] at h
      · intro children pairsS bs L h; simp [walkSItemsFuel] at h
  | succ fuel ih =>
      obtain ⟨ihD, ihI⟩ := ih
      constructor
      · intro current bs L h
        rcases walkSDirFuel_ok_cases h with ⟨_, rfl⟩ | ⟨names, _, hitems⟩
        · intro l hl; simp at hl
        · refine ihI _ _ _ _ hitems ?_
          intro p hp
          obtain ⟨f, it⟩ := p
          exact mem_sortedItems_not_ignored (List.of_mem_zip hp).2
      · intro children pairsS bs L h hni
        match pairsS with
        | [] =>
            have hL : L = [] := by
              simp only [walkSItemsFuel] at h
              have := Option.some.inj h
              simpa using (Except.ok.inj this).symm
            subst hL
            intro l hl
            simp at hl
        | (last, item) :: restS =>
            obtain ⟨subL, moreL, rfl, hrest, hsub⟩ := walkSItemsFuel_cons_ok h
            intro l hl
            rcases List.mem_cons.mp hl with rfl | hl'
            · exact hni (last, item) (List.mem_cons_self _ _)
            · rcases List.mem_append.mp hl' with hsubm | hmorem
              · rcases hsub with ⟨_, rfl⟩ | ⟨child, _, _, rfl⟩ |
                    ⟨child, _, _, hsubwalk⟩
                · simp at hsubm
                · simp at hsubm
                · exact ihD _ _ _ hsubwalk _ hsubm
              · exact ihI _ _ _ _ hrest
                  (fun p hp => hni p (List.mem_cons_of_mem _ hp)) _ hmorem

/-- The lines of a successful item loop whose blocks equal the current
blocks are exactly one line per `(is-last, item)` pair, in order. -/
theorem walkS_direct {fuel : Nat} {children : List Node}
    {pairsS : List (Bool × String)} {bs : List Bool} {L : List TLine}
    (h : walkSItemsFuel fuel children pairsS bs = some (.ok L)) :
    L.filter (fun l => l.blocks == bs) =
      pairsS.map (fun p => TLine.mk bs p.1 p.2) := by
  obtain ⟨segs, rfl, hF⟩ := (walkS_shape fuel).2 _ _ _ _ h
  clear h
  induction hF with
  | nil => rfl
  | cons hR hF' ih =>
      obtain ⟨rest, rfl, hrest⟩ := hR
      have hrf : rest.filter (fun l => l.blocks == bs) = [] := by
        rw [List.filter_eq_nil_iff]
        intro l' hl'
        obtain ⟨ext, hext⟩ := hrest l' hl'
        simp only [hext]
        intro hcontra
        have := congrArg List.length (eq_of_beq hcontra)
        simp at this
      simp only [List.flatten_cons, List.filter_append, List.map_cons,
        List.cons_append, List.filter_cons]
      simp [hrf, ih]

/-- Any successful structured walk result maps to the `walk_dir` result for
the rendered prefix. -/
theorem walkS_to_walk_dir {fuel : Nat} {current : Node} {bs : List Bool}
    {L : List TLine}
    (h : walkSDirFuel fuel current bs = some (.ok L)) :
    walk_dir current (renderPref bs) = .ok (L.map renderLine) := by
  have hc := (walkS_corr fuel).1 current bs
  rw [h] at hc
  exact (walkFuel_sound fuel).1 _ _ _ (by simpa [Except.map] using hc)

/-- Any successful structured walk result that is an error also transfers. -/
theorem walkSDirFuel_complete (current : Node) (bs : List Bool) :
    ∃ fuel rS, walkSDirFuel fuel current bs = some rS ∧
      walk_dir current (renderPref bs) = Except.map (List.map renderLine) rS := by
  obtain ⟨fuel, hf⟩ := walkDirFuel_complete current (renderPref bs)
  have hc := (walkS_corr fuel).1 current bs
  rw [hf] at hc
  cases hS : walkSDirFuel fuel current bs with
  | none => rw [hS] at hc; simp at hc
  | some rS =>
      rw [hS] at hc
      exact ⟨fuel, rS, hS, by simpa using hc⟩

/-- When every directory of the tree lists successfully, the walk never
produces an error (the root must itself be a directory). -/
theorem walkS_no_error (fuel : Nat) :
    (∀ current bs, allOk current = true → nodeIsDir current = true →
      ∀ e, walkSDirFuel fuel current bs ≠ some (.error e)) ∧
    (∀ children pairsS bs, allOkList children = true →
      ∀ e, walkSItemsFuel fuel children pairsS bs ≠ some (.error e)) := by
  induction fuel with
  | zero =>
      constructor
      · intro current bs _ _ e h; simp [walkSDirFuel] at h
      · intro children pairsS bs _ e h; simp [walkSItemsFuel] at h
  | succ fuel ih =>
      obtain ⟨ihD, ihI⟩ := ih
      constructor
      · intro current bs hok hdir e h
        cases current with
        | file n => simp [nodeIsDir] at hdir
        | dirErr n e' => simp [allOk] at hok
        | dirOk n cs =>
            simp only [walkSDirFuel, listdir, childrenOf] at h
            exact ihI _ _ _ (by simpa [allOk] using hok) e h
      · intro children pairsS bs hok e h
        match pairsS with
        | [] => simp [walkSItemsFuel] at h
        | (last, item) :: restS =>
            simp only [walkSItemsFuel] at h
            cases hr : resolve children item with
            | none =>
                rw [hr] at h
                dsimp only at h
                cases hrest : walkSItemsFuel fuel children restS bs with
                | none => rw [hrest] at h; simp at h
                | some r' =>
                    rw [hrest] at h
                    cases r' with
                    | error e' => exact absurd hrest (ihI _ _ _ hok e')
                    | ok moreL => simp at h
            | some child =>
                rw [hr] at h
                dsimp only at h
                by_cases hd : nodeIsDir child = true
                · rw [if_pos hd] at h
                  cases hsub : walkSDirFuel fuel child (bs ++ [!last]) with
                  | none => rw [hsub] at h; simp at h
                  | some rsub =>
                      rw [hsub] at h
                      cases rsub with
                      | error e' =>
                          have hmem := List.mem_of_find?_eq_some hr
                          exact absurd hsub
                            (ihD _ _ (allOkList_mem hok hmem) hd e')
                      | ok subL =>
                          cases hrest : walkSItemsFuel fuel children restS bs with
                          | none => rw [hrest] at h; simp at h
                          | some r' =>
                              rw [hrest] at h
                              cases r' with
                              | error e' => exact absurd hrest (ihI _ _ _ hok e')
                              | ok moreL => simp at h
                · rw [if_neg hd] at h
                  cases hrest : walkSItemsFuel fuel children restS bs with
                  | none => rw [hrest] at h; simp at h
                  | some r' =>
                      rw [hrest] at h
                      cases r' with
                      | error e' => exact absurd hrest (ihI _ _ _ hok e')
                      | ok moreL => simp at h

theorem renderPref_length (bsl : List Bool) :
    (renderPref bsl).length = 4 * bsl.length := by
  induction bsl with
  | nil => rfl
  | cons b bsl ih =>
      show (blockStr b ++ renderPref bsl).length = 4 * (bsl.length + 1)
      have h4 : (blockStr b).length = 4 := by cases b <;> rfl
      rw [String.length_append, ih, h4]
      omega

theorem getD_map_blockStr (bsl : List Bool) (k : Nat) :
    k < bsl.length →
    (bsl.map blockStr).getD k "" = blockStr (bsl.getD k false) := by
  induction bsl generalizing k with
  | nil => intro hk; simp at hk
  | cons b bsl ih =>
      intro hk
      cases k with
      | zero => rfl
      | succ k => exact ih k (by simpa using hk)

theorem lastFlags_length_eq {items : List String} (h : items ≠ []) :
    (lastFlags items).length = items.length := by
  cases items with
  | nil => exact absurd rfl h
  | cons x xs => simp [lastFlags]

theorem zip_lastFlags_map_fst {items : List String} (h : items ≠ []) :
    ((lastFlags items).zip items).map Prod.fst = lastFlags items :=
  List.map_fst_zip _ _ (le_of_eq (lastFlags_length_eq h))

/-- `generate_tree(root_dir)` from the script: the header line
`f"{project_name}/"` followed by the lines of `walk_dir(root_dir)`, joined
with newlines; an exception escaping `walk_dir` escapes `generate_tree`. -/
def generate_tree (root_dir : Node) : Except PyError String :=
  let project_name := nodeName root_dir
  match walk_dir root_dir "" with
  | .error e => .error e
  | .ok lines => .ok (String.intercalate "\n" ((project_name ++ "/") :: lines))

/-- The single file write performed by `main` on success:
`open(OUTPUT_FILENAME, "w", encoding="utf-8")` followed by `f.write(...)`.
Mode `"w"` truncates (overwrites) any existing file of that name. -/
structure WriteOp where
  filename : String
  mode : String
  encoding : String
  content : String
deriving DecidableEq, Repr

/-- The observable outcome of one run of `main`: on success, the file write
it performed and the tree text it previews on the console; on failure (the
`except Exception` branch), the error it reports. -/
inductive RunResult : Type where
  | success (written : WriteOp) (preview : String) : RunResult
  | failure (error : PyError) : RunResult
deriving DecidableEq, Repr

/-- `main()` from the script, run with the current working directory `cwd`:
it calls `generate_tree`, writes the result to `OUTPUT_FILENAME` in mode
`"w"` with UTF-8 encoding, and previews it; any exception is caught and
reported as failure. -/
def pyMain (cwd : Node) : RunResult :=
  match generate_tree cwd with
  | .ok project_tree =>
      .success ⟨OUTPUT_FILENAME, "w", "utf-8", project_tree⟩ project_tree
  | .error e => .failure e

/-- The directory tree of the spec's worked example: a root `root` holding
files `b.txt` and `a.txt` and a directory `sub` holding `c.txt`. -/
def exampleTree : Node :=
  .dirOk "root" [.file "b.txt", .file "a.txt", .dirOk "sub" [.file "c.txt"]]

theorem example_walk_eval :
    walk_dir exampleTree "" =
      .ok ["├── a.txt", "├── b.txt", "└── sub", "    └── c.txt"] :=
  (walkFuel_sound 10).1 exampleTree ""
    (.ok ["├── a.txt", "├── b.txt", "└── sub", "    └── c.txt"]) (by rfl)

theorem generate_tree_example_eval :
    generate_tree exampleTree =
      .ok "root/\n├── a.txt\n├── b.txt\n└── sub\n    └── c.txt" := by
  rw [generate_tree, example_walk_eval]
  rfl

/-- C2: on the example tree (root `root` with files `b.txt`, `a.txt` and
directory `sub` containing `c.txt`), `generate_tree` returns exactly the
five lines `root/`, `├── a.txt`, `├── b.txt`, `└── sub`, `    └── c.txt`
joined by newlines, in that order. -/
theorem claim_c2_example_output :
    generate_tree exampleTree =
      .ok "root/\n├── a.txt\n├── b.txt\n└── sub\n    └── c.txt" :=
  generate_tree_example_eval

/-- A root directory with one subdirectory whose listing raises an exception
other than `FileNotFoundError` (here `PermissionError`). -/
def permErrTree : Node := .dirOk "root" [.dirErr "sub" PyError.permissionError]

/-- A root directory with one subdirectory whose listing raises
`FileNotFoundError`. -/
def fnfErrTree : Node := .dirOk "root" [.dirErr "sub" PyError.fileNotFoundError]

/-- C1 counterexample: the claim says any exception raised while listing a
subdirectory is caught locally and the run reports success; but when
listing `sub` raises `PermissionError`, the exception escapes `walk_dir`
and `generate_tree`, and the run reports failure. -/
theorem claim_c1_counterexample :
    generate_tree permErrTree = .error PyError.permissionError ∧
    pyMain permErrTree = .failure PyError.permissionError := by
  have hw : walk_dir permErrTree "" = .error PyError.permissionError :=
    (walkFuel_sound 10).1 permErrTree "" (.error PyError.permissionError) (by rfl)
  have hg : generate_tree permErrTree = .error PyError.permissionError := by
    rw [generate_tree, hw]
  exact ⟨hg, by rw [pyMain, hg]⟩

/-- C1 (amended): only a `FileNotFoundError` raised while listing a
subdirectory is caught locally inside the renderer — the subdirectory's own
line (emitted from its parent's listing) is kept, zero descendant lines are
emitted for it, no error reaches the caller, and the run reports success;
any other exception propagates to the caller. -/
theorem claim_c1_amended_fnf_caught :
    (∀ (nm : String) (pref : String),
      walk_dir (Node.dirErr nm PyError.fileNotFoundError) pref = .ok []) ∧
    generate_tree fnfErrTree = .ok "root/\n└── sub" ∧
    pyMain fnfErrTree =
      .success ⟨OUTPUT_FILENAME, "w", "utf-8", "root/\n└── sub"⟩
        "root/\n└── sub" := by
  have hw : walk_dir fnfErrTree "" = .ok ["└── sub"] :=
    (walkFuel_sound 10).1 fnfErrTree "" (.ok ["└── sub"]) (by rfl)
  have hg : generate_tree fnfErrTree = .ok "root/\n└── sub" := by
    rw [generate_tree, hw]
    rfl
  refine ⟨?_, hg, by rw [pyMain, hg]⟩
  intro nm pref
  rw [walk_dir]
  rfl

/-- C10: when the root directory itself cannot be listed
(`FileNotFoundError` at listing time), `generate_tree` still returns just
the header line `<root base name>/`, and the driver writes a header-only
file and reports success. -/
theorem claim_c10_missing_root (nm : String) :
    generate_tree (Node.dirErr nm PyError.fileNotFoundError) = .ok (nm ++ "/") ∧
    pyMain (Node.dirErr nm PyError.fileNotFoundError) =
      .success ⟨OUTPUT_FILENAME, "w", "utf-8", nm ++ "/"⟩ (nm ++ "/") := by
  have hw : walk_dir (Node.dirErr nm PyError.fileNotFoundError) "" = .ok [] := by
    rw [walk_dir]
    rfl
  have hg : generate_tree (Node.dirErr nm PyError.fileNotFoundError) =
      .ok (nm ++ "/") := by
    rw [generate_tree, hw]
    rfl
  exact ⟨hg, by rw [pyMain, hg]⟩

/-- C9: an empty filtered item list is handled without error: Python's
`["├── "] * (len(items) - 1)` is `[]` at `-1`, so the pointer list is
`["└── "]`, the zip with the empty item list is empty, and `walk_dir`
emits zero lines for such a directory. -/
theorem claim_c9_empty_items :
    pointersFor [] = ["└── "] ∧
    pyListMul ["├── "] (-1) = [] ∧
    (pointersFor []).zip ([] : List String) = [] ∧
    ∀ (d : Node) (names : List String) (pref : String),
      listdir d = .ok names → sortedItems names = [] →
      walk_dir d pref = .ok [] := by
  refine ⟨by rfl, by rfl, by rfl, ?_⟩
  intro d names pref h1 h2
  rw [walk_dir]
  cases hl : listdir d with
  | error e => rw [h1] at hl; simp at hl
  | ok names2 =>
      rw [h1] at hl
      have : names2 = names := (Except.ok.inj hl).symm
      subst this
      dsimp only
      rw [h2]
      show walkItems (childrenOf d) [] pref = Except.ok []
      rw [walkItems]

/-- Witness for C9: a directory whose only child is named `.git` has an
empty filtered item list and renders zero lines. -/
theorem claim_c9_witness :
    listdir (Node.dirOk "d" [Node.file ".git"]) = .ok [".git"] ∧
    sortedItems [".git"] = [] ∧
    walk_dir (Node.dirOk "d" [Node.file ".git"]) "" = .ok [] :=
  ⟨rfl, rfl, claim_c9_empty_items.2.2.2 _ [".git"] "" rfl rfl⟩

/-- C8: on a successful run the driver writes exactly the renderer's string
to the fixed file name `project_structure.txt` in the working directory,
opened in mode `"w"` (overwriting any existing file) with UTF-8 encoding;
the content is the newline-join of header and tree lines, so it ends with
the final tree line with nothing after it. -/
theorem claim_c8_output_write (cwd : Node) (t : String)
    (h : generate_tree cwd = .ok t) :
    pyMain cwd = .success ⟨OUTPUT_FILENAME, "w", "utf-8", t⟩ t ∧
    OUTPUT_FILENAME = "project_structure.txt" ∧
    ∃ lines, walk_dir cwd "" = .ok lines ∧
      t = String.intercalate "\n" ((nodeName cwd ++ "/") :: lines) := by
  refine ⟨by rw [pyMain, h], rfl, ?_⟩
  rw [generate_tree] at h
  cases hw : walk_dir cwd "" with
  | error e => rw [hw] at h; simp at h
  | ok lines =>
      rw [hw] at h
      dsimp only at h
      exact ⟨lines, rfl, (Except.ok.inj h).symm⟩

/-- Witness for C8, on the example tree. -/
theorem claim_c8_witness :
    generate_tree exampleTree =
      .ok "root/\n├── a.txt\n├── b.txt\n└── sub\n    └── c.txt" ∧
    pyMain exampleTree =
      .success ⟨OUTPUT_FILENAME, "w", "utf-8",
          "root/\n├── a.txt\n├── b.txt\n└── sub\n    └── c.txt"⟩
        "root/\n├── a.txt\n├── b.txt\n└── sub\n    └── c.txt" :=
  ⟨generate_tree_example_eval,
    (claim_c8_output_write exampleTree _ generate_tree_example_eval).1⟩

/-- A root with one ignored child (`.git`) and one ordinary child. -/
def ignTree : Node := .dirOk "root" [.file ".git", .file "a"]

/-- C3: an entry whose base name exactly matches a member of the Ignore Set
never appears in the output, nor does anything below it: the walk of any
tree equals the walk of the tree with every ignored-named entry (and its
subtree) deleted (`pruneIgnored`, which compares base names by exact string
equality only, at every depth), and no emitted line carries an ignored
name. -/
theorem claim_c3_ignored_never_appear :
    (∀ (current : Node) (pref : String),
      walk_dir current pref = walk_dir (pruneIgnored current) pref) ∧
    (∀ (fuel : Nat) (current : Node) (bs : List Bool) (L : List TLine),
      walkSDirFuel fuel current bs = some (.ok L) →
      ∀ l ∈ L, IGNORE_LIST.contains l.name = false) := by
  constructor
  · intro current pref
    obtain ⟨fuel, hf⟩ := walkDirFuel_complete current pref
    have hp := (walkPruneFuel fuel).1 current pref
    rw [hf] at hp
    exact ((walkFuel_sound fuel).1 _ _ _ hp).symm
  · intro fuel current bs L h
    exact (walkS_noIgnored fuel).1 _ _ _ h

/-- Witness for C3: a root with an ignored `.git` child renders only the
other child, and pruning does not change the output. -/
theorem claim_c3_witness :
    walk_dir ignTree "" = walk_dir (pruneIgnored ignTree) "" ∧
    (∀ l ∈ [TLine.mk [] true "a"], IGNORE_LIST.contains l.name = false) :=
  ⟨claim_c3_ignored_never_appear.1 ignTree "",
   claim_c3_ignored_never_appear.2 5 ignTree [] [TLine.mk [] true "a"] (by rfl)⟩

/-- C4: for a directory tree with no ignored names, distinct sibling names,
and every listing succeeding, the rendered output (below the header) lists
exactly the filesystem entries reachable from the root: as a multiset of
names, one line per reachable entry, none omitted, none duplicated. -/
theorem claim_c4_exact_entries (d : Node) (bs : List Bool)
    (hd : nodeIsDir d = true) (hok : allOk d = true)
    (hu : uniqNames d = true) (hni : noIgnored d = true) :
    ∃ L : List TLine, walk_dir d (renderPref bs) = .ok (L.map renderLine) ∧
      (↑(L.map TLine.name) : Multiset String) = reachNames d := by
  obtain ⟨fuel, rS, hS, hw⟩ := walkSDirFuel_complete d bs
  cases rS with
  | error e => exact absurd hS ((walkS_no_error fuel).1 d bs hok hd e)
  | ok L => exact ⟨L, walkS_to_walk_dir hS, (walkS_names fuel).1 _ _ _ hS hu hni⟩

/-- Witness for C4, on the example tree. -/
theorem claim_c4_witness :
    nodeIsDir exampleTree = true ∧ allOk exampleTree = true ∧
    uniqNames exampleTree = true ∧ noIgnored exampleTree = true ∧
    ∃ L : List TLine,
      walk_dir exampleTree (renderPref []) = .ok (L.map renderLine) ∧
      (↑(L.map TLine.name) : Multiset String) = reachNames exampleTree :=
  ⟨rfl, rfl, rfl, rfl, claim_c4_exact_entries exampleTree [] rfl rfl rfl rfl⟩

/-- C5: within every visited directory the child lines appear in ascending
lexicographic order of name, and each child's complete subtree (all lines
with strictly deeper indentation blocks) is emitted before the next
sibling's line. -/
theorem claim_c5_sorted_siblings (fuel : Nat) (d : Node) (bs : List Bool)
    (L : List TLine) (h : walkSDirFuel fuel d bs = some (.ok L)) :
    walk_dir d (renderPref bs) = .ok (L.map renderLine) ∧
    List.Sorted (strLe · · = true)
      ((L.filter (fun l => l.blocks == bs)).map TLine.name) ∧
    ∃ segs : List (List TLine), L = segs.flatten ∧
      ∀ seg ∈ segs, ∃ l rest, seg = l :: rest ∧ l.blocks = bs ∧
        ∀ l2 ∈ rest, ∃ ext, l2.blocks = bs ++ (!l.isLast) :: ext := by
  refine ⟨walkS_to_walk_dir h, ?_, ?_⟩
  · cases fuel with
    | zero => simp [walkSDirFuel] at h
    | succ fuel =>
        rcases walkSDirFuel_ok_cases h with ⟨_, rfl⟩ | ⟨names, _, hitems⟩
        · simp
        · rw [walkS_direct hitems]
          have hm : (((lastFlags (sortedItems names)).zip (sortedItems names)).map
              (fun p => TLine.mk bs p.1 p.2)).map TLine.name =
              ((lastFlags (sortedItems names)).zip (sortedItems names)).map
                Prod.snd := by
            rw [List.map_map]
            rfl
          rw [hm, zip_lastFlags_map_snd]
          exact sortedItems_sorted names
  · cases fuel with
    | zero => simp [walkSDirFuel] at h
    | succ fuel =>
        rcases walkSDirFuel_ok_cases h with ⟨_, rfl⟩ | ⟨names, _, hitems⟩
        · exact ⟨[], rfl, by intro seg hseg; simp at hseg⟩
        · obtain ⟨segs, rfl, hF⟩ := (walkS_shape fuel).2 _ _ _ _ hitems
          refine ⟨segs, rfl, ?_⟩
          intro seg hseg
          obtain ⟨p, _, rest, heq, hrest⟩ := forall₂_exists_of_mem_left hF hseg
          exact ⟨TLine.mk bs p.1 p.2, rest, heq, rfl, hrest⟩

/-- Witness for C5, on the example tree. -/
theorem claim_c5_witness :
    walkSDirFuel 10 exampleTree [] =
      some (.ok [⟨[], false, "a.txt"⟩, ⟨[], false, "b.txt"⟩, ⟨[], true, "sub"⟩,
        ⟨[false], true, "c.txt"⟩]) ∧
    List.Sorted (strLe · · = true)
      ((([⟨[], false, "a.txt"⟩, ⟨[], false, "b.txt"⟩, ⟨[], true, "sub"⟩,
          ⟨[false], true, "c.txt"⟩] : List TLine).filter
        (fun l => l.blocks == ([] : List Bool))).map TLine.name) :=
  ⟨by rfl, (claim_c5_sorted_siblings 10 exampleTree [] _ (by rfl)).2.1⟩

/-- C6: in every visited directory with a non-empty filtered, sorted child
list, the final child's line carries the pointer `"└── "` and every other
child's line carries `"├── "`, placed between the indentation prefix and
the child name. -/
theorem claim_c6_pointers (fuel : Nat) (d : Node) (bs : List Bool)
    (L : List TLine) (h : walkSDirFuel fuel d bs = some (.ok L))
    (hne : L.filter (fun l => l.blocks == bs) ≠ []) :
    walk_dir d (renderPref bs) = .ok (L.map renderLine) ∧
    (L.filter (fun l => l.blocks == bs)).map TLine.isLast =
      List.replicate ((L.filter (fun l => l.blocks == bs)).length - 1) false
        ++ [true] ∧
    (∀ l : TLine, renderLine l =
      renderPref l.blocks ++ pointerStr l.isLast ++ l.name) ∧
    pointerStr true = "└── " ∧ pointerStr false = "├── " := by
  refine ⟨walkS_to_walk_dir h, ?_, fun l => rfl, rfl, rfl⟩
  cases fuel with
  | zero => simp [walkSDirFuel] at h
  | succ fuel =>
      rcases walkSDirFuel_ok_cases h with ⟨_, rfl⟩ | ⟨names, _, hitems⟩
      · simp at hne
      · rw [walkS_direct hitems] at hne ⊢
        have hne2 : sortedItems names ≠ [] := by
          intro hc
          apply hne
          rw [hc]
          rfl
        have hfst : ((((lastFlags (sortedItems names)).zip
            (sortedItems names)).map (fun p => TLine.mk bs p.1 p.2)).map
              TLine.isLast) = lastFlags (sortedItems names) := by
          rw [List.map_map]
          exact zip_lastFlags_map_fst hne2
        have hlen : ((((lastFlags (sortedItems names)).zip
            (sortedItems names)).map (fun p => TLine.mk bs p.1 p.2)).length) =
            (sortedItems names).length := by
          rw [List.length_map, List.length_zip, lastFlags_length_eq hne2]
          exact min_self _
        rw [hfst, hlen]
        rfl

/-- Witness for C6, on the example tree. -/
theorem claim_c6_witness :
    walkSDirFuel 10 exampleTree [] =
      some (.ok [⟨[], false, "a.txt"⟩, ⟨[], false, "b.txt"⟩, ⟨[], true, "sub"⟩,
        ⟨[false], true, "c.txt"⟩]) ∧
    (([⟨[], false, "a.txt"⟩, ⟨[], false, "b.txt"⟩, ⟨[], true, "sub"⟩,
        ⟨[false], true, "c.txt"⟩] : List TLine).filter
      (fun l => l.blocks == ([] : List Bool))).map TLine.isLast =
      List.replicate
        ((([⟨[], false, "a.txt"⟩, ⟨[], false, "b.txt"⟩, ⟨[], true, "sub"⟩,
            ⟨[false], true, "c.txt"⟩] : List TLine).filter
          (fun l => l.blocks == ([] : List Bool))).length - 1) false ++ [true] :=
  ⟨by rfl,
   (claim_c6_pointers 10 exampleTree [] _ (by rfl) (by decide)).2.1⟩

/-- C7: every rendered line's indentation is `renderPref` of its ancestor
blocks — four characters per ancestor level, each four-character block
`"│   "` exactly when that ancestor was a non-last sibling and `"    "`
when it was last — and recursion extends the blocks of a child line `l` by
`!l.isLast` for all lines of its subtree. -/
theorem claim_c7_prefix_blocks (fuel : Nat) (d : Node) (bs : List Bool)
    (L : List TLine) (h : walkSDirFuel fuel d bs = some (.ok L)) :
    walk_dir d (renderPref bs) = .ok (L.map renderLine) ∧
    (∀ l : TLine, renderLine l =
      renderPref l.blocks ++ pointerStr l.isLast ++ l.name) ∧
    (∀ l ∈ L, (renderPref l.blocks).length = 4 * l.blocks.length) ∧
    (∀ (bsl : List Bool) (b : Bool),
      renderPref (bsl ++ [b]) = renderPref bsl ++ blockStr b) ∧
    (∀ (bsl : List Bool) (k : Nat), k < bsl.length →
      (bsl.map blockStr).getD k "" = blockStr (bsl.getD k false)) ∧
    blockStr true = "│   " ∧ blockStr false = "    " ∧
    ∃ segs : List (List TLine), L = segs.flatten ∧
      ∀ seg ∈ segs, ∃ l rest, seg = l :: rest ∧ l.blocks = bs ∧
        ∀ l2 ∈ rest, ∃ ext, l2.blocks = bs ++ (!l.isLast) :: ext := by
  refine ⟨walkS_to_walk_dir h, fun l => rfl,
    fun l _ => renderPref_length l.blocks, renderPref_append,
    getD_map_blockStr, rfl, rfl, ?_⟩
  cases fuel with
  | zero => simp [walkSDirFuel] at h
  | succ fuel =>
      rcases walkSDirFuel_ok_cases h with ⟨_, rfl⟩ | ⟨names, _, hitems⟩
      · exact ⟨[], rfl, by intro seg hseg; simp at hseg⟩
      · obtain ⟨segs, rfl, hF⟩ := (walkS_shape fuel).2 _ _ _ _ hitems
        refine ⟨segs, rfl, ?_⟩
        intro seg hseg
        obtain ⟨p, _, rest, heq, hrest⟩ := forall₂_exists_of_mem_left hF hseg
        exact ⟨TLine.mk bs p.1 p.2, rest, heq, rfl, hrest⟩

/-- Witness for C7, on the example tree. -/
theorem claim_c7_witness :
    walkSDirFuel 10 exampleTree [] =
      some (.ok [⟨[], false, "a.txt"⟩, ⟨[], false, "b.txt"⟩, ⟨[], true, "sub"⟩,
        ⟨[false], true, "c.txt"⟩]) ∧
    walk_dir exampleTree (renderPref []) =
      .ok (([⟨[], false, "a.txt"⟩, ⟨[], false, "b.txt"⟩, ⟨[], true, "sub"⟩,
        ⟨[false], true, "c.txt"⟩] : List TLine).map renderLine) :=
  ⟨by rfl, (claim_c7_prefix_blocks 10 exampleTree [] _ (by rfl)).1⟩
